import Mathlib

/-!
Verification of the deploy-tool core (`deploy_tool/core/aws_manager.py` and
`deploy_tool/core/build_manager.py`) against its natural-language specification.

The object store (S3) is modelled as an association list from keys to stored
objects; keys are lists of characters (Python strings are sequences of code
points, and S3 key comparison is plain string comparison).  Pure helpers of the
Python code are translated into Lean functions; the fallible object-store calls
are modelled with explicit fault parameters where a claim is about error
propagation.
-/

set_option maxHeartbeats 1000000

/-- Keys and other Python strings are modelled as lists of characters. -/
abbrev Key := List Char

/-- Convert a Lean string literal to a `Key`. -/
def sl (s : String) : Key := s.data

/-- A stored S3 object: body bytes plus the metadata stored with it
(`ContentType` and `CacheControl`, cf. `deploy_version` / `copy_object` with
`MetadataDirective='COPY'`). -/
structure ObjData where
  body : List Nat
  contentType : Key
  cacheControl : Key
deriving DecidableEq, Repr

/-- The bucket: an association list from keys to object data.  A well-formed
bucket has pairwise-distinct keys. -/
abbrev Bucket := List (Key × ObjData)

/-- Look up the object stored under key `k` (S3 `get_object` view of the
bucket). -/
def lookupObj (k : Key) (s : Bucket) : Option ObjData :=
  (s.find? (fun kv => kv.1 == k)).map (·.2)

/-- Store object data under key `k`, overwriting any previous object with the
same key (S3 `put_object` / `upload_file` / `copy_object` destination
semantics). -/
def putObject (s : Bucket) (k : Key) (d : ObjData) : Bucket :=
  s.filter (fun kv => !(kv.1 == k)) ++ [(k, d)]

/-- All stored objects whose key begins with `p`
(`list_objects_v2(Prefix=p)` over every page of the paginator). -/
def listPrefix (p : Key) (s : Bucket) : Bucket :=
  s.filter (fun kv => p.isPrefixOf kv.1)

/-- Delete a batch of keys (`delete_objects(Delete={'Objects': batch})`). -/
def deleteKeys (s : Bucket) (ks : List Key) : Bucket :=
  s.filter (fun kv => !(ks.contains kv.1))

/-- Split a list into chunks of (at most) 1000 elements, as
`objects_to_delete[i:i+1000]` does in `_clear_prefix`. -/
def chunks1000 : List Key → List (List Key)
  | [] => []
  | k :: ks => (k :: ks).take 1000 :: chunks1000 ((k :: ks).drop 1000)
termination_by l => l.length
decreasing_by
  simp only [List.length_drop, List.length_cons]
  omega

/-- `AWSManager._clear_prefix`: list every object under `p`, then delete the
collected keys in batches of 1000.  (The blanket `except: pass` of the Python
code is modelled separately, in `clear_prefix_f`, for the error-propagation
claim.) -/
def clearPrefix (p : Key) (s : Bucket) : Bucket :=
  (chunks1000 ((listPrefix p s).map Prod.fst)).foldl deleteKeys s

/-- `AWSManager._copy_s3_prefix`: server-side copy every object under
`srcp` to `dstp ++ (key with srcp stripped)`, counting copies; metadata is
preserved (`MetadataDirective='COPY'`). -/
def copyPrefix (srcp dstp : Key) (s : Bucket) : Nat × Bucket :=
  (listPrefix srcp s).foldl
    (fun acc kv => (acc.1 + 1, putObject acc.2 (dstp ++ kv.1.drop srcp.length) kv.2))
    (0, s)

/-- The version-scoped prefix `{project}/builds/{version}/`. -/
def buildsPrefix (p v : Key) : Key := p ++ sl "/builds/" ++ v ++ sl "/"

/-- The published prefix `{project}/current/`. -/
def currentPrefix (p : Key) : Key := p ++ sl "/current/"

/-- `AWSManager.activate_version` in a sequential, error-free run: delete
everything under `{p}/current/`, then copy `{p}/builds/{v}/` to
`{p}/current/`; returns the copied-file count together with the resulting
bucket. -/
def activate_version (p v : Key) (s : Bucket) : Nat × Bucket :=
  copyPrefix (buildsPrefix p v) (currentPrefix p) (clearPrefix (currentPrefix p) s)

-- ### Basic lemmas about the bucket operations

theorem isPrefixOf_iff_pre {l₁ l₂ : Key} : l₁.isPrefixOf l₂ = true ↔ l₁ <+: l₂ :=
  List.isPrefixOf_iff_prefix

theorem pre_of_append (l t : Key) : l <+: l ++ t := ⟨t, rfl⟩

theorem find?_filter_of_imp {p q : Key × ObjData → Bool} (l : Bucket)
    (h : ∀ kv, p kv = true → q kv = true) :
    (l.filter q).find? p = l.find? p := by
  induction l with
  | nil => rfl
  | cons kv l ih =>
    by_cases hp : p kv = true
    · rw [List.filter_cons_of_pos (h kv hp), List.find?_cons_of_pos _ hp,
        List.find?_cons_of_pos _ hp]
    · by_cases hq : q kv = true
      · rw [List.filter_cons_of_pos hq, List.find?_cons_of_neg _ (by simpa using hp),
          List.find?_cons_of_neg _ (by simpa using hp), ih]
      · rw [List.filter_cons_of_neg (by simpa using hq),
          List.find?_cons_of_neg _ (by simpa using hp), ih]

theorem contains_append_eq (c f : List Key) (a : Key) :
    (c ++ f).contains a = (c.contains a || f.contains a) := by
  apply Bool.eq_iff_iff.mpr
  simp [List.elem_iff, List.mem_append]

theorem foldl_deleteKeys (s : Bucket) (L : List (List Key)) :
    L.foldl deleteKeys s = s.filter (fun kv => !((L.flatten).contains kv.1)) := by
  induction L generalizing s with
  | nil => simp [deleteKeys]
  | cons c L ih =>
    simp only [List.foldl_cons, ih, deleteKeys, List.filter_filter, List.flatten_cons]
    apply List.filter_congr
    intro kv _
    rw [contains_append_eq, Bool.not_or, Bool.and_comm]

theorem chunks1000_flatten (l : List Key) : (chunks1000 l).flatten = l := by
  induction l using chunks1000.induct with
  | case1 => simp [chunks1000]
  | case2 k ks ih =>
    rw [chunks1000, List.flatten_cons, ih, List.take_append_drop]

/-- `_clear_prefix` removes exactly the objects whose key starts with `p`. -/
theorem clearPrefix_eq_filter (p : Key) (s : Bucket) :
    clearPrefix p s = s.filter (fun kv => !(p.isPrefixOf kv.1)) := by
  rw [clearPrefix, foldl_deleteKeys, chunks1000_flatten]
  apply List.filter_congr
  intro kv hkv
  have hc : ((listPrefix p s).map Prod.fst).contains kv.1 = p.isPrefixOf kv.1 := by
    apply Bool.eq_iff_iff.mpr
    constructor
    · intro hcon
      obtain ⟨kv', hkv', heq⟩ := List.mem_map.mp (List.elem_iff.mp hcon)
      rw [listPrefix, List.mem_filter] at hkv'
      rw [← heq]
      exact hkv'.2
    · intro hp
      exact List.elem_iff.mpr (List.mem_map.mpr ⟨kv, List.mem_filter.mpr ⟨hkv, hp⟩, rfl⟩)
  rw [hc]

theorem find?_append_or {α : Type} (p : α → Bool) (l₁ l₂ : List α) :
    (l₁ ++ l₂).find? p = ((l₁.find? p).orElse (fun _ => l₂.find? p)) := by
  induction l₁ with
  | nil => rfl
  | cons a l ih =>
    by_cases h : p a = true
    · simp [List.find?_cons_of_pos _ h, Option.orElse]
    · simp only [List.cons_append, List.find?_cons_of_neg _ (by simpa using h), ih]

theorem find?_congr_mem {α : Type} {p q : α → Bool} {l : List α}
    (h : ∀ a ∈ l, p a = q a) : l.find? p = l.find? q := by
  induction l with
  | nil => rfl
  | cons a l ih =>
    have ha := h a (List.mem_cons_self a l)
    by_cases hp : p a = true
    · rw [List.find?_cons_of_pos _ hp, List.find?_cons_of_pos _ (ha ▸ hp)]
    · rw [List.find?_cons_of_neg _ (by simpa using hp),
        List.find?_cons_of_neg _ (by rw [← ha]; simpa using hp)]
      exact ih fun a ha' => h a (List.mem_cons_of_mem _ ha')

theorem lookupObj_putObject (s : Bucket) (k k' : Key) (d : ObjData) :
    lookupObj k (putObject s k' d) = if k = k' then some d else lookupObj k s := by
  unfold lookupObj putObject
  rw [find?_append_or]
  by_cases h : k = k'
  · subst h
    have h1 : (s.filter (fun kv => !(kv.1 == k))).find? (fun kv => kv.1 == k) = none := by
      rw [List.find?_eq_none]
      intro kv hkv
      rw [List.mem_filter] at hkv
      simpa using hkv.2
    rw [h1]
    simp [List.find?]
  · have h1 : (s.filter (fun kv => !(kv.1 == k'))).find? (fun kv => kv.1 == k)
        = s.find? (fun kv => kv.1 == k) := by
      apply find?_filter_of_imp
      intro kv hkv
      rw [beq_iff_eq] at hkv
      simp [hkv, h]
    rw [h1, if_neg h]
    cases hf : s.find? (fun kv => kv.1 == k) with
    | some kv => simp [Option.orElse]
    | none =>
      have hsing : List.find? (fun kv => kv.1 == k) [(k', d)] = none := by
        have hne : ((k', d).1 == k) = false := by
          simp only [beq_eq_false_iff_ne, ne_eq]
          exact fun hk => h hk.symm
        simp [List.find?, hne]
      simp [Option.orElse, hsing]

/-- Folding `putObject` over a list of records (with pairwise-distinct target
keys) makes each record retrievable under its key and leaves all other keys
unchanged. -/
theorem lookup_foldl_put {β : Type} (keyf : β → Key) (dataf : β → ObjData)
    (L : List β) (s : Bucket) (k : Key) (hnd : (L.map keyf).Nodup) :
    lookupObj k (L.foldl (fun st b => putObject st (keyf b) (dataf b)) s)
      = ((L.find? (fun b => keyf b == k)).map dataf).or (lookupObj k s) := by
  induction L generalizing s with
  | nil => simp
  | cons b L ih =>
    rw [List.map_cons, List.nodup_cons] at hnd
    rw [List.foldl_cons]
    by_cases hk : keyf b = k
    · have hnone : L.find? (fun b' => keyf b' == k) = none := by
        rw [List.find?_eq_none]
        intro b' hb' hbeq
        rw [beq_iff_eq] at hbeq
        apply hnd.1
        rw [hk, ← hbeq]
        exact List.mem_map.mpr ⟨b', hb', rfl⟩
      rw [ih _ hnd.2, hnone, List.find?_cons_of_pos _ (by simpa using hk),
        lookupObj_putObject, if_pos hk.symm]
      simp
    · rw [ih _ hnd.2, List.find?_cons_of_neg _ (by simpa using hk),
        lookupObj_putObject, if_neg (fun hkk => hk hkk.symm)]

theorem foldl_count_pair {β : Type} (g : Bucket → β → Bucket) (L : List β)
    (n : Nat) (s : Bucket) :
    (L.foldl (fun acc b => (acc.1 + 1, g acc.2 b)) (n, s))
      = (n + L.length, L.foldl g s) := by
  induction L generalizing n s with
  | nil => simp
  | cons b L ih =>
    rw [List.foldl_cons, ih, List.foldl_cons, List.length_cons]
    simp only [Prod.mk.injEq]
    refine ⟨by omega, ?_⟩
    trivial

-- ### Disjointness of the `current/` and `builds/{v}/` prefixes

theorem cur_not_pre_builds (p v t : Key) :
    ¬ (currentPrefix p <+: buildsPrefix p v ++ t) := by
  rintro ⟨u, hu⟩
  rw [currentPrefix, buildsPrefix] at hu
  have h2 : sl "/current/" ++ u = sl "/builds/" ++ (v ++ sl "/" ++ t) := by
    apply @List.append_cancel_left Char p
    simpa [List.append_assoc] using hu
  have h3 := congrArg (fun l => l[1]?) h2
  simp only at h3
  rw [List.getElem?_append_left (by simp [sl]),
    List.getElem?_append_left (by simp [sl])] at h3
  simp [sl] at h3

theorem builds_not_pre_cur (p v t : Key) :
    ¬ (buildsPrefix p v <+: currentPrefix p ++ t) := by
  rintro ⟨u, hu⟩
  rw [currentPrefix, buildsPrefix] at hu
  have h2 : sl "/builds/" ++ (v ++ (sl "/" ++ u)) = sl "/current/" ++ t := by
    apply @List.append_cancel_left Char p
    simpa [List.append_assoc] using hu
  have h3 := congrArg (fun l => l[1]?) h2
  simp only at h3
  rw [List.getElem?_append_left (by simp [sl]),
    List.getElem?_append_left (by simp [sl])] at h3
  simp [sl] at h3

theorem lookupObj_clear_of_not_pre (p k : Key) (s : Bucket) (h : ¬ p <+: k) :
    lookupObj k (clearPrefix p s) = lookupObj k s := by
  rw [clearPrefix_eq_filter]
  unfold lookupObj
  rw [find?_filter_of_imp]
  intro kv hkv
  rw [beq_iff_eq] at hkv
  cases hh : p.isPrefixOf kv.1
  · simp
  · exact absurd (hkv ▸ isPrefixOf_iff_pre.mp hh) h

theorem lookupObj_clear_of_pre (p k : Key) (s : Bucket) (h : p <+: k) :
    lookupObj k (clearPrefix p s) = none := by
  rw [clearPrefix_eq_filter]
  unfold lookupObj
  have hfind : (s.filter (fun kv => !(p.isPrefixOf kv.1))).find? (fun kv => kv.1 == k)
      = none := by
    rw [List.find?_eq_none]
    intro kv hkv
    rw [List.mem_filter] at hkv
    intro hbeq
    rw [beq_iff_eq] at hbeq
    have : p.isPrefixOf kv.1 = true := isPrefixOf_iff_pre.mpr (hbeq ▸ h)
    rw [this] at hkv
    exact absurd hkv.2 (by simp)
  rw [hfind]
  rfl

theorem listPrefix_clear_disj (q p : Key) (s : Bucket)
    (h : ∀ k, q <+: k → ¬ p <+: k) :
    listPrefix q (clearPrefix p s) = listPrefix q s := by
  rw [clearPrefix_eq_filter, listPrefix, listPrefix, List.filter_filter]
  apply List.filter_congr
  intro kv _
  cases hq : q.isPrefixOf kv.1
  · simp
  · simp only [Bool.true_and]
    cases hp : p.isPrefixOf kv.1
    · simp
    · exact absurd (isPrefixOf_iff_pre.mp hp) (h kv.1 (isPrefixOf_iff_pre.mp hq))

theorem lookup_copy_fold (srcp dstp : Key) (L : List (Key × ObjData)) (s : Bucket)
    (k : Key) (hnd : (L.map (fun kv => dstp ++ kv.1.drop srcp.length)).Nodup) :
    lookupObj k (L.foldl (fun st kv => putObject st (dstp ++ kv.1.drop srcp.length) kv.2) s)
      = ((L.find? (fun kv => dstp ++ kv.1.drop srcp.length == k)).map (·.2)).or
          (lookupObj k s) :=
  lookup_foldl_put (fun kv => dstp ++ kv.1.drop srcp.length) (fun kv => kv.2) L s k hnd

/-- C1.  In a sequential, error-free run, `activate_version` leaves the object
set under `{project}/current/` exactly equal to the object set under
`{project}/builds/{version}/` re-rooted to `current/` (bodies and stored
metadata preserved), and returns a copied-file count equal to the number of
objects under `builds/{version}/`. -/
theorem activate_version_mirrors_builds (p v : Key) (s : Bucket)
    (hnd : (s.map Prod.fst).Nodup) :
    (∀ k : Key,
        lookupObj (currentPrefix p ++ k) (activate_version p v s).2
          = lookupObj (buildsPrefix p v ++ k) s)
    ∧ (activate_version p v s).1 = (listPrefix (buildsPrefix p v) s).length := by
  have hdisj : ∀ k : Key, buildsPrefix p v <+: k → ¬ currentPrefix p <+: k := by
    rintro k ⟨t, ht⟩
    rw [← ht]
    exact cur_not_pre_builds p v t
  have hs1 : listPrefix (buildsPrefix p v) (clearPrefix (currentPrefix p) s)
      = listPrefix (buildsPrefix p v) s :=
    listPrefix_clear_disj _ _ _ hdisj
  have hnd1 : ((clearPrefix (currentPrefix p) s).map Prod.fst).Nodup := by
    rw [clearPrefix_eq_filter]
    exact hnd.sublist ((List.filter_sublist s).map _)
  have hmempre : ∀ kv ∈ listPrefix (buildsPrefix p v) (clearPrefix (currentPrefix p) s),
      buildsPrefix p v <+: kv.1 := by
    intro kv hkv
    rw [listPrefix, List.mem_filter] at hkv
    exact isPrefixOf_iff_pre.mp hkv.2
  have hndL : ((listPrefix (buildsPrefix p v) (clearPrefix (currentPrefix p) s)).map
      Prod.fst).Nodup :=
    hnd1.sublist ((List.filter_sublist _).map _)
  have hndkeys : ((listPrefix (buildsPrefix p v) (clearPrefix (currentPrefix p) s)).map
      (fun kv => currentPrefix p ++ kv.1.drop (buildsPrefix p v).length)).Nodup := by
    apply List.Nodup.map_on _ (hndL.of_map _)
    intro kv1 h1 kv2 h2 heq
    obtain ⟨t1, ht1⟩ := hmempre kv1 h1
    obtain ⟨t2, ht2⟩ := hmempre kv2 h2
    rw [← ht1, ← ht2, List.drop_left, List.drop_left] at heq
    have ht12 := List.append_cancel_left heq
    have hkeq : kv1.1 = kv2.1 := by rw [← ht1, ← ht2, ht12]
    exact List.inj_on_of_nodup_map hndL h1 h2 hkeq
  have hact : activate_version p v s
      = ((listPrefix (buildsPrefix p v) (clearPrefix (currentPrefix p) s)).length,
        (listPrefix (buildsPrefix p v) (clearPrefix (currentPrefix p) s)).foldl
          (fun st kv => putObject st
            (currentPrefix p ++ kv.1.drop (buildsPrefix p v).length) kv.2)
          (clearPrefix (currentPrefix p) s)) := by
    rw [activate_version, copyPrefix]
    rw [foldl_count_pair (fun st (kv : Key × ObjData) => putObject st
      (currentPrefix p ++ kv.1.drop (buildsPrefix p v).length) kv.2)]
    rw [Nat.zero_add]
  constructor
  · intro k
    rw [hact]
    rw [lookup_copy_fold (buildsPrefix p v) (currentPrefix p) _ _ _ hndkeys]
    have hclr : lookupObj (currentPrefix p ++ k) (clearPrefix (currentPrefix p) s)
        = none :=
      lookupObj_clear_of_pre _ _ _ (pre_of_append _ _)
    rw [hclr, Option.or_none]
    have hcongr : (listPrefix (buildsPrefix p v) (clearPrefix (currentPrefix p) s)).find?
        (fun kv => currentPrefix p ++ kv.1.drop (buildsPrefix p v).length
          == currentPrefix p ++ k)
        = (listPrefix (buildsPrefix p v) (clearPrefix (currentPrefix p) s)).find?
          (fun kv => kv.1 == buildsPrefix p v ++ k) := by
      apply find?_congr_mem
      intro kv hkv
      obtain ⟨t, ht⟩ := hmempre kv hkv
      rw [← ht, List.drop_left]
      apply Bool.eq_iff_iff.mpr
      rw [beq_iff_eq, beq_iff_eq]
      constructor
      · intro h
        rw [List.append_cancel_left h]
      · intro h
        rw [List.append_cancel_left h]
    rw [hcongr]
    have hfilt : (listPrefix (buildsPrefix p v) (clearPrefix (currentPrefix p) s)).find?
        (fun kv => kv.1 == buildsPrefix p v ++ k)
        = (clearPrefix (currentPrefix p) s).find? (fun kv => kv.1 == buildsPrefix p v ++ k) := by
      apply find?_filter_of_imp
      intro kv hkv
      rw [beq_iff_eq] at hkv
      exact isPrefixOf_iff_pre.mpr (hkv ▸ pre_of_append _ _)
    rw [hfilt]
    have hlkp : ((clearPrefix (currentPrefix p) s).find?
        (fun kv => kv.1 == buildsPrefix p v ++ k)).map (·.2)
        = lookupObj (buildsPrefix p v ++ k) (clearPrefix (currentPrefix p) s) := rfl
    rw [hlkp]
    exact lookupObj_clear_of_not_pre _ _ _ (hdisj _ (pre_of_append _ _))
  · rw [hact]
    rw [hs1]

/-- Witness for C1 at a concrete bucket: project `shop`, version `v2`,
with a stale object under `current/` from an earlier version. -/
theorem activate_version_mirrors_builds_witness :
    lookupObj (currentPrefix (sl "shop") ++ sl "index.html")
        (activate_version (sl "shop") (sl "v2")
          [(sl "shop/current/index.html",
              ⟨[111, 108, 100], sl "text/html; charset=utf-8", sl "public, max-age=0, must-revalidate"⟩),
            (sl "shop/builds/v2/index.html",
              ⟨[110, 101, 119], sl "text/html; charset=utf-8", sl "public, max-age=0, must-revalidate"⟩)]).2
      = lookupObj (buildsPrefix (sl "shop") (sl "v2") ++ sl "index.html")
          [(sl "shop/current/index.html",
              ⟨[111, 108, 100], sl "text/html; charset=utf-8", sl "public, max-age=0, must-revalidate"⟩),
            (sl "shop/builds/v2/index.html",
              ⟨[110, 101, 119], sl "text/html; charset=utf-8", sl "public, max-age=0, must-revalidate"⟩)]
    ∧ (activate_version (sl "shop") (sl "v2")
          [(sl "shop/current/index.html",
              ⟨[111, 108, 100], sl "text/html; charset=utf-8", sl "public, max-age=0, must-revalidate"⟩),
            (sl "shop/builds/v2/index.html",
              ⟨[110, 101, 119], sl "text/html; charset=utf-8", sl "public, max-age=0, must-revalidate"⟩)]).1
      = (listPrefix (buildsPrefix (sl "shop") (sl "v2"))
          [(sl "shop/current/index.html",
              ⟨[111, 108, 100], sl "text/html; charset=utf-8", sl "public, max-age=0, must-revalidate"⟩),
            (sl "shop/builds/v2/index.html",
              ⟨[110, 101, 119], sl "text/html; charset=utf-8", sl "public, max-age=0, must-revalidate"⟩)]).length :=
  ⟨(activate_version_mirrors_builds (sl "shop") (sl "v2") _ (by decide)).1 (sl "index.html"),
    (activate_version_mirrors_builds (sl "shop") (sl "v2") _ (by decide)).2⟩

-- ### Version listing and retention (`list_versions` / `cleanup_old_versions`)

/-- Extract the version name contributed by a stored key to the
`CommonPrefixes` rollup of `list_objects_v2(Prefix=bp, Delimiter='/')`:
a key `bp ++ seg ++ "/" ++ rest` contributes `seg` (after the Python code
strips the trailing slash and discards empty names); keys under `bp` with no
further `/` are plain `Contents` entries and contribute nothing. -/
def versionSeg (bp k : Key) : Option Key :=
  if bp.isPrefixOf k then
    if ((k.drop bp.length).dropWhile (fun c => !(c == '/'))).isEmpty then none
    else if ((k.drop bp.length).takeWhile (fun c => !(c == '/'))).isEmpty then none
    else some ((k.drop bp.length).takeWhile (fun c => !(c == '/')))
  else none

/-- Descending sort by the lexicographic string order
(`sorted(versions, reverse=True)`). -/
def sortDesc (l : List Key) : List Key := l.insertionSort (fun a b => b ≤ a)

/-- `AWSManager.list_versions`: the distinct first-level names under
`{p}/builds/` (the `CommonPrefixes` rollup), sorted descending. -/
def list_versions (p : Key) (s : Bucket) : List Key :=
  sortDesc ((s.filterMap (fun kv => versionSeg (p ++ sl "/builds/") kv.1)).dedup)

/-- `AWSManager.cleanup_old_versions`: keep the first `keep` versions of
`list_versions`, delete the object subtree of every remaining version,
returning the deletion count together with the resulting bucket. -/
def cleanup_old_versions (p : Key) (keep : Nat) (s : Bucket) : Nat × Bucket :=
  let versions := list_versions p s
  if versions.length ≤ keep then (0, s)
  else
    (versions.drop keep).foldl
      (fun acc v => (acc.1 + 1, clearPrefix (p ++ sl "/builds/" ++ v ++ sl "/") acc.2))
      (0, s)

theorem instTotalGe : IsTotal Key (fun a b => b ≤ a) := ⟨fun a b => le_total b a⟩

theorem instTransGe : IsTrans Key (fun a b => b ≤ a) :=
  ⟨fun _ _ _ h1 h2 => le_trans h2 h1⟩

theorem instAntisymmGe : IsAntisymm Key (fun a b => b ≤ a) :=
  ⟨fun _ _ h1 h2 => le_antisymm h2 h1⟩

theorem sortDesc_perm (l : List Key) : List.Perm (sortDesc l) l :=
  List.perm_insertionSort _ l

theorem sortDesc_sorted (l : List Key) : (sortDesc l).Sorted (fun a b => b ≤ a) :=
  @List.sorted_insertionSort Key _ _ instTotalGe instTransGe l

theorem pre_append_cancel {l a b : Key} : l ++ a <+: l ++ b ↔ a <+: b := by
  constructor
  · rintro ⟨t, ht⟩
    rw [List.append_assoc] at ht
    exact ⟨t, List.append_cancel_left ht⟩
  · rintro ⟨t, ht⟩
    exact ⟨t, by rw [List.append_assoc, ht]⟩

theorem dropWhile_head_not {p : Char → Bool} {l l' : Key} {a : Char}
    (h : l.dropWhile p = a :: l') : p a = false := by
  induction l with
  | nil => exact absurd h (by simp)
  | cons b l ih =>
    rw [List.dropWhile_cons] at h
    split at h
    · exact ih h
    · next hb =>
      cases h
      simpa using hb

theorem seg_pre_iff {d x : Key} (rest : Key)
    (hd : ∀ c ∈ d, c ≠ '/') (hx : ∀ c ∈ x, c ≠ '/') :
    (d ++ ['/'] <+: x ++ '/' :: rest) ↔ d = x := by
  induction d generalizing x with
  | nil =>
    cases x with
    | nil => simp
    | cons c x' =>
      simp only [List.nil_append, List.cons_append, List.cons_prefix_cons]
      constructor
      · rintro ⟨hc, -⟩
        exact absurd hc.symm (hx c (List.mem_cons_self c x'))
      · intro h
        exact absurd h (by simp)
  | cons a d' ih =>
    cases x with
    | nil =>
      simp only [List.cons_append, List.nil_append, List.cons_prefix_cons]
      constructor
      · rintro ⟨hc, -⟩
        exact absurd hc (hd a (List.mem_cons_self a d'))
      · intro h
        exact absurd h (by simp)
    | cons c x' =>
      simp only [List.cons_append, List.cons_prefix_cons, List.cons.injEq]
      constructor
      · rintro ⟨hac, hpre⟩
        refine ⟨hac, ?_⟩
        exact (ih (fun e he => hd e (List.mem_cons_of_mem _ he))
          (fun e he => hx e (List.mem_cons_of_mem _ he))).mp hpre
      · rintro ⟨hac, hdx⟩
        refine ⟨hac, ?_⟩
        exact (ih (fun e he => hd e (List.mem_cons_of_mem _ he))
          (fun e he => hx e (List.mem_cons_of_mem _ he))).mpr hdx

/-- Inversion of `versionSeg`: a contributed name is a nonempty, slash-free
segment sitting right after the prefix and followed by `/`. -/
theorem versionSeg_some {bp k x : Key} (h : versionSeg bp k = some x) :
    (∃ rest : Key, k = bp ++ (x ++ '/' :: rest)) ∧ x ≠ [] ∧ ∀ c ∈ x, c ≠ '/' := by
  unfold versionSeg at h
  split at h
  · next hpre =>
    obtain ⟨t, ht⟩ := isPrefixOf_iff_pre.mp hpre
    have hr : k.drop bp.length = t := by rw [← ht, List.drop_left]
    rw [hr] at h
    split at h
    · exact absurd h (by simp)
    · next hdw =>
      split at h
      · exact absurd h (by simp)
      · next hseg =>
        cases h
        refine ⟨?_, by simpa [List.isEmpty_iff] using hseg, ?_⟩
        · cases hdrop : t.dropWhile (fun c => !(c == '/')) with
          | nil => rw [hdrop] at hdw; simp at hdw
          | cons a rest =>
            have ha : (!(a == '/')) = false := dropWhile_head_not hdrop
            have ha' : a = '/' := by simpa using ha
            refine ⟨rest, ?_⟩
            rw [← ht]
            congr 1
            conv_lhs => rw [← List.takeWhile_append_dropWhile (fun c => !(c == '/')) t]
            rw [hdrop, ha']
        · intro c hc
          have := List.mem_takeWhile_imp hc
          simpa using this
  · exact absurd h (by simp)

theorem foldl_clear_eq_filter (B : Key) (D : List Key) (s : Bucket) :
    D.foldl (fun st d => clearPrefix (B ++ d ++ sl "/") st) s
      = s.filter (fun kv => D.all (fun d => !((B ++ d ++ sl "/").isPrefixOf kv.1))) := by
  induction D generalizing s with
  | nil => simp
  | cons d D ih =>
    rw [List.foldl_cons, ih, clearPrefix_eq_filter, List.filter_filter]
    apply List.filter_congr
    intro kv _
    rw [List.all_cons, Bool.and_comm]

theorem mem_raw_filtered (B : Key) (D : List Key) (s : Bucket)
    (hD : ∀ d ∈ D, d ≠ [] ∧ ∀ c ∈ d, c ≠ '/') (x : Key) :
    (x ∈ (s.filter (fun kv => D.all (fun d => !((B ++ d ++ sl "/").isPrefixOf kv.1)))).filterMap
        (fun kv => versionSeg B kv.1))
      ↔ (x ∈ s.filterMap (fun kv => versionSeg B kv.1) ∧ x ∉ D) := by
  rw [List.mem_filterMap, List.mem_filterMap]
  constructor
  · rintro ⟨kv, hkv, hseg⟩
    rw [List.mem_filter] at hkv
    refine ⟨⟨kv, hkv.1, hseg⟩, ?_⟩
    intro hxD
    obtain ⟨⟨rest, hkk⟩, hxne, hxsf⟩ := versionSeg_some hseg
    have hall := List.all_eq_true.mp hkv.2 x hxD
    have hpre : (B ++ x ++ sl "/") <+: kv.1 := by
      rw [hkk, List.append_assoc, pre_append_cancel]
      exact pre_append_cancel.mpr ⟨rest, rfl⟩
    rw [isPrefixOf_iff_pre.mpr hpre] at hall
    simp at hall
  · rintro ⟨⟨kv, hkv, hseg⟩, hxD⟩
    refine ⟨kv, ?_, hseg⟩
    rw [List.mem_filter]
    refine ⟨hkv, ?_⟩
    rw [List.all_eq_true]
    intro d hd
    obtain ⟨⟨rest, hkk⟩, hxne, hxsf⟩ := versionSeg_some hseg
    obtain ⟨hdne, hdsf⟩ := hD d hd
    cases hip : (B ++ d ++ sl "/").isPrefixOf kv.1
    · simp
    · exfalso
      have hpre := isPrefixOf_iff_pre.mp hip
      rw [hkk, List.append_assoc, pre_append_cancel] at hpre
      have hdx : d = x := (seg_pre_iff rest hdsf hxsf).mp hpre
      exact hxD (hdx ▸ hd)

theorem list_versions_props (p : Key) (s : Bucket) :
    ∀ d ∈ list_versions p s, d ≠ [] ∧ ∀ c ∈ d, c ≠ '/' := by
  intro d hd
  rw [list_versions] at hd
  have hd' := (sortDesc_perm _).mem_iff.mp hd
  rw [List.mem_dedup] at hd'
  obtain ⟨kv, _, hseg⟩ := List.mem_filterMap.mp hd'
  exact ⟨(versionSeg_some hseg).2.1, (versionSeg_some hseg).2.2⟩

/-- C2.  For every project and `keepCount ≥ 1`, `cleanup_old_versions` returns
`max(0, totalVersions - keepCount)` as the deleted count, leaves stored
exactly the `min(keepCount, totalVersions)` lexicographically greatest
versions (the first `keepCount` of the descending listing), and every
remaining version is strictly greater than every deleted one; in particular
nothing is deleted when `totalVersions ≤ keepCount`. -/
theorem cleanup_keeps_greatest (p : Key) (keep : Nat) (s : Bucket) (_hk : 1 ≤ keep) :
    (cleanup_old_versions p keep s).1 = (list_versions p s).length - keep
    ∧ list_versions p (cleanup_old_versions p keep s).2 = (list_versions p s).take keep
    ∧ ∀ w ∈ (list_versions p s).take keep, ∀ u ∈ (list_versions p s).drop keep, u < w := by
  have hVnodup : (list_versions p s).Nodup :=
    ((sortDesc_perm _).nodup_iff).mpr (List.nodup_dedup _)
  have hVsorted : (list_versions p s).Sorted (fun a b => b ≤ a) := sortDesc_sorted _
  have hcross : ∀ w ∈ (list_versions p s).take keep,
      ∀ u ∈ (list_versions p s).drop keep, u < w := by
    intro w hw u hu
    have hpw : ((list_versions p s).take keep ++ (list_versions p s).drop keep).Pairwise
        (fun a b => b ≤ a) := by
      rw [List.take_append_drop]
      exact hVsorted
    rw [List.pairwise_append] at hpw
    have hle : u ≤ w := hpw.2.2 w hw u hu
    have hnd : ((list_versions p s).take keep ++ (list_versions p s).drop keep).Nodup := by
      rw [List.take_append_drop]
      exact hVnodup
    rw [List.nodup_append] at hnd
    have hne : u ≠ w := fun he => hnd.2.2 hw (he ▸ hu)
    exact lt_of_le_of_ne hle hne
  by_cases hlen : (list_versions p s).length ≤ keep
  · have hcleanup : cleanup_old_versions p keep s = (0, s) := by
      rw [cleanup_old_versions, if_pos hlen]
    refine ⟨?_, ?_, hcross⟩
    · rw [hcleanup]
      exact (Nat.sub_eq_zero_of_le hlen).symm
    · rw [hcleanup, List.take_of_length_le hlen]
  · have hcleanup : cleanup_old_versions p keep s
        = (((list_versions p s).drop keep).length,
          ((list_versions p s).drop keep).foldl
            (fun st v => clearPrefix (p ++ sl "/builds/" ++ v ++ sl "/") st) s) := by
      rw [cleanup_old_versions, if_neg hlen]
      rw [foldl_count_pair (fun st (v : Key) =>
        clearPrefix (p ++ sl "/builds/" ++ v ++ sl "/") st)]
      rw [Nat.zero_add]
    have hDprops : ∀ d ∈ (list_versions p s).drop keep, d ≠ [] ∧ ∀ c ∈ d, c ≠ '/' :=
      fun d hd => list_versions_props p s d (List.mem_of_mem_drop hd)
    refine ⟨?_, ?_, hcross⟩
    · rw [hcleanup, List.length_drop]
    · rw [hcleanup]
      rw [foldl_clear_eq_filter (p ++ sl "/builds/") ((list_versions p s).drop keep) s]
      have hnd1 : (list_versions p (List.filter (fun kv =>
          ((list_versions p s).drop keep).all fun d =>
            !(p ++ sl "/builds/" ++ d ++ sl "/").isPrefixOf kv.1) s)).Nodup :=
        ((sortDesc_perm _).nodup_iff).mpr (List.nodup_dedup _)
      have hnd2 : ((list_versions p s).take keep).Nodup :=
        hVnodup.sublist (List.take_sublist _ _)
      apply @List.eq_of_perm_of_sorted Key (fun a b => b ≤ a) instAntisymmGe
      · rw [List.perm_ext_iff_of_nodup hnd1 hnd2]
        intro x
        have hmemL : x ∈ list_versions p (List.filter (fun kv =>
            ((list_versions p s).drop keep).all fun d =>
              !(p ++ sl "/builds/" ++ d ++ sl "/").isPrefixOf kv.1) s)
            ↔ (x ∈ s.filterMap (fun kv => versionSeg (p ++ sl "/builds/") kv.1)
              ∧ x ∉ (list_versions p s).drop keep) := by
          rw [list_versions]
          rw [(sortDesc_perm _).mem_iff, List.mem_dedup]
          exact mem_raw_filtered (p ++ sl "/builds/") _ s hDprops x
        have hmemV : ∀ y : Key, y ∈ list_versions p s
            ↔ y ∈ s.filterMap (fun kv => versionSeg (p ++ sl "/builds/") kv.1) := by
          intro y
          rw [list_versions, (sortDesc_perm _).mem_iff, List.mem_dedup]
        rw [hmemL]
        constructor
        · rintro ⟨hraw, hnd⟩
          have hV : x ∈ list_versions p s := (hmemV x).mpr hraw
          have : x ∈ (list_versions p s).take keep ++ (list_versions p s).drop keep := by
            rw [List.take_append_drop]
            exact hV
          rcases List.mem_append.mp this with h | h
          · exact h
          · exact absurd h hnd
        · intro hx
          have hV : x ∈ list_versions p s := by
            have h2 : x ∈ (list_versions p s).take keep ++ (list_versions p s).drop keep :=
              List.mem_append.mpr (Or.inl hx)
            rwa [List.take_append_drop] at h2
          refine ⟨(hmemV x).mp hV, ?_⟩
          intro hxD
          have hndV : ((list_versions p s).take keep
              ++ (list_versions p s).drop keep).Nodup := by
            rw [List.take_append_drop]
            exact hVnodup
          rw [List.nodup_append] at hndV
          exact hndV.2.2 hx hxD
      · exact sortDesc_sorted _
      · exact List.Pairwise.sublist (List.take_sublist _ _) hVsorted

/-- Witness for C2: project `shop` with three stored versions, `keep = 2`. -/
theorem cleanup_keeps_greatest_witness :
    (1 : Nat) ≤ 2
    ∧ ((cleanup_old_versions (sl "shop") 2
          [(sl "shop/builds/v1/a", ⟨[1], [], []⟩),
            (sl "shop/builds/v2/a", ⟨[2], [], []⟩),
            (sl "shop/builds/v3/a", ⟨[3], [], []⟩)]).1
        = (list_versions (sl "shop")
            [(sl "shop/builds/v1/a", ⟨[1], [], []⟩),
              (sl "shop/builds/v2/a", ⟨[2], [], []⟩),
              (sl "shop/builds/v3/a", ⟨[3], [], []⟩)]).length - 2
      ∧ list_versions (sl "shop")
          (cleanup_old_versions (sl "shop") 2
            [(sl "shop/builds/v1/a", ⟨[1], [], []⟩),
              (sl "shop/builds/v2/a", ⟨[2], [], []⟩),
              (sl "shop/builds/v3/a", ⟨[3], [], []⟩)]).2
        = (list_versions (sl "shop")
            [(sl "shop/builds/v1/a", ⟨[1], [], []⟩),
              (sl "shop/builds/v2/a", ⟨[2], [], []⟩),
              (sl "shop/builds/v3/a", ⟨[3], [], []⟩)]).take 2
      ∧ ∀ w ∈ (list_versions (sl "shop")
            [(sl "shop/builds/v1/a", ⟨[1], [], []⟩),
              (sl "shop/builds/v2/a", ⟨[2], [], []⟩),
              (sl "shop/builds/v3/a", ⟨[3], [], []⟩)]).take 2,
          ∀ u ∈ (list_versions (sl "shop")
            [(sl "shop/builds/v1/a", ⟨[1], [], []⟩),
              (sl "shop/builds/v2/a", ⟨[2], [], []⟩),
              (sl "shop/builds/v3/a", ⟨[3], [], []⟩)]).drop 2, u < w) :=
  ⟨by decide, cleanup_keeps_greatest (sl "shop") 2 _ (by decide)⟩

-- ### Error propagation in `activate_version` (fault-injected model)

/-- Check whether an `Except` result is a success. -/
def exceptOk {ε α : Type} : Except ε α → Bool
  | Except.ok _ => true
  | Except.error _ => false

/-- `AWSManager._clear_prefix` as actually written: the whole body sits in a
blanket `try/except Exception: pass`, so an object-store failure while
listing or deleting is swallowed and the caller sees no error.
`deleteFails = true` models a fault raised by the first object-store call of
the body: the handler eats it and the bucket is left unchanged. -/
def clear_prefix_f (p : Key) (deleteFails : Bool) (s : Bucket) : Bucket :=
  if deleteFails then s else clearPrefix p s

/-- `AWSManager._copy_s3_prefix` with a fault switch: `copy_object` has no
handler there, so a failure propagates as an exception to the caller. -/
def copy_s3_prefix_f (srcp dstp : Key) (copyFails : Bool) (s : Bucket) :
    Except String (Nat × Bucket) :=
  if copyFails then Except.error "copy_object failed"
  else Except.ok (copyPrefix srcp dstp s)

/-- `AWSManager.activate_version` including its `try/except`: an exception
escaping the body is re-raised as `Failed to activate version: ...`.  The
deletion phase cannot contribute such an exception because `_clear_prefix`
swallows its own errors. -/
def activate_version_f (p v : Key) (deleteFails copyFails : Bool) (s : Bucket) :
    Except String (Nat × Bucket) :=
  match copy_s3_prefix_f (buildsPrefix p v) (currentPrefix p) copyFails
      (clear_prefix_f (currentPrefix p) deleteFails s) with
  | Except.error e => Except.error ("Failed to activate version: " ++ e)
  | Except.ok r => Except.ok r

/-- Counterexample to C4: a run of `activate_version` in which the
deletion phase's object-store call fails (there is an object under
`current/`, so `delete_objects` is really invoked) yet the call returns
success — and the stale object `shop/current/old.html` survives next to the
freshly copied one. -/
theorem activate_delete_error_reports_success :
    activate_version_f (sl "shop") (sl "v2") true false
        [(sl "shop/current/old.html", ⟨[1], [], []⟩),
          (sl "shop/builds/v2/index.html", ⟨[2], [], []⟩)]
      = Except.ok (1,
          [(sl "shop/current/old.html", ⟨[1], [], []⟩),
            (sl "shop/builds/v2/index.html", ⟨[2], [], []⟩),
            (sl "shop/current/index.html", ⟨[2], [], []⟩)]) := by
  rfl

/-- C4 amended: an object-store error in the copy phase of
`activate_version` is fatal and propagates (wrapped in
`Failed to activate version: ...`), but an error in the first-phase deletion
is silently swallowed by `_clear_prefix`'s blanket handler, so activate
reports success whenever the copy phase succeeds — even though an
object-store call within it failed. -/
theorem activate_error_propagation_amended (p v : Key) (s : Bucket) (df : Bool) :
    activate_version_f p v df true s
      = Except.error "Failed to activate version: copy_object failed"
    ∧ exceptOk (activate_version_f p v df false s) = true := by
  cases df <;> exact ⟨rfl, rfl⟩

-- ### The build fallback ladder (`_build_with_fallbacks`)

/-- `BuildManager._build_with_fallbacks`, shallowly embedded over the
outcomes `r1..r4` of its four strategy invocations (standard build,
framework-specific build, forced base path, config-bypassed build).
Strategies 3 and 4 are attempted only when the framework is `vite`; every
per-strategy failure is merely printed as a warning; when no strategy
succeeded the function raises the fixed message
`All build strategies failed`. -/
def build_with_fallbacks (isVite : Bool) (r1 r2 r3 r4 : Except String Unit) :
    Except String Unit :=
  if exceptOk r1 then Except.ok ()
  else if exceptOk r2 then Except.ok ()
  else if isVite && exceptOk r3 then Except.ok ()
  else if isVite && exceptOk r4 then Except.ok ()
  else Except.error "All build strategies failed"

/-- Counterexample to C5: two all-fail runs with entirely different
per-strategy failure messages raise the very same error value — the fixed
string `All build strategies failed` — so the raised error carries no list
of per-strategy failures. -/
theorem build_failure_list_not_attached :
    build_with_fallbacks true (Except.error "standard build failed: E1")
        (Except.error "framework build failed: E2")
        (Except.error "forced base path failed: E3")
        (Except.error "config-bypassed build failed: E4")
      = Except.error "All build strategies failed"
    ∧ build_with_fallbacks true (Except.error "X1") (Except.error "X2")
        (Except.error "X3") (Except.error "X4")
      = build_with_fallbacks true (Except.error "standard build failed: E1")
        (Except.error "framework build failed: E2")
        (Except.error "forced base path failed: E3")
        (Except.error "config-bypassed build failed: E4") :=
  ⟨rfl, rfl⟩

/-- C5 amended: when every applicable strategy of the build ladder fails,
`_build_with_fallbacks` raises a fatal error with the fixed message
`All build strategies failed`, independent of the individual failures
(which are only logged as warnings during execution); no list of
per-strategy failures is attached. -/
theorem build_all_fail_fixed_error (isVite : Bool) (r1 r2 r3 r4 : Except String Unit)
    (h1 : exceptOk r1 = false) (h2 : exceptOk r2 = false)
    (h3 : isVite = true → exceptOk r3 = false)
    (h4 : isVite = true → exceptOk r4 = false) :
    build_with_fallbacks isVite r1 r2 r3 r4
      = Except.error "All build strategies failed" := by
  cases isVite with
  | false => simp [build_with_fallbacks, h1, h2]
  | true => simp [build_with_fallbacks, h1, h2, h3 rfl, h4 rfl]

/-- Witness for the amended C5 at concrete failing strategies. -/
theorem build_all_fail_fixed_error_witness :
    build_with_fallbacks true (Except.error "E1") (Except.error "E2")
        (Except.error "E3") (Except.error "E4")
      = Except.error "All build strategies failed" :=
  build_all_fail_fixed_error true _ _ _ _ rfl rfl (fun _ => rfl) (fun _ => rfl)

-- ### Framework detection (`_detect_framework_and_build_dir`)

/-- A parsed `package.json`: the `dependencies` and `devDependencies`
mappings (package name → version constraint). -/
structure PackageJson where
  dependencies : List (Key × Key)
  devDependencies : List (Key × Key)

/-- The merged mapping `{**dependencies, **devDependencies}`: development
entries override runtime ones; a name is present iff it is present in either
group. -/
def mergedDeps (pj : PackageJson) : List (Key × Key) :=
  pj.dependencies.filter (fun kv => !((pj.devDependencies.map Prod.fst).contains kv.1))
    ++ pj.devDependencies

/-- Python's `'name' in dependencies` (dict key membership). -/
def hasDep (deps : List (Key × Key)) (name : Key) : Bool :=
  (deps.map Prod.fst).contains name

/-- `BuildManager._detect_framework_and_build_dir`.  `none` models a missing
or unparsable `package.json` (`load_json_file` raising, caught by the
blanket `except` which returns the safe default). -/
def detect_framework_and_build_dir (manifest : Option PackageJson) : Key × Key :=
  match manifest with
  | none => (sl "react", sl "build")
  | some pj =>
    let deps := mergedDeps pj
    if hasDep deps (sl "vite") then (sl "vite", sl "dist")
    else if hasDep deps (sl "next") then (sl "next", sl ".next")
    else if hasDep deps (sl "@angular/core") then (sl "angular", sl "dist")
    else if hasDep deps (sl "vue") then (sl "vue", sl "dist")
    else if hasDep deps (sl "react-scripts") then (sl "react", sl "build")
    else if hasDep deps (sl "react") then (sl "react", sl "build")
    else (sl "node", sl "dist")

/-- The specification's fixed decision table, in its stated priority order
(written from the claim's words, to be compared with the code's function):
each entry is (dependency key, framework, output directory). -/
def detectTable : List (Key × Key × Key) :=
  [(sl "vite", sl "vite", sl "dist"),
    (sl "next", sl "next", sl ".next"),
    (sl "@angular/core", sl "angular", sl "dist"),
    (sl "vue", sl "vue", sl "dist"),
    (sl "react-scripts", sl "react", sl "build"),
    (sl "react", sl "react", sl "build")]

/-- Framework detection as the specification words it: the first table entry
whose key occurs in the merged manifest wins; `(node, dist)` when none of
the six keys is present; the safe default `(react, build)` for a missing or
unparsable manifest. -/
def detect_spec (manifest : Option PackageJson) : Key × Key :=
  match manifest with
  | none => (sl "react", sl "build")
  | some pj =>
    match detectTable.find? (fun e => hasDep (mergedDeps pj) e.1) with
    | some e => e.2
    | none => (sl "node", sl "dist")

/-- C3.  The code's framework detection agrees everywhere with the
specification's priority table: first matching key in the order
vite, next, @angular/core, vue, react-scripts, react; `(node, dist)` when
none is declared; `(react, build)` for a missing or unparsable manifest. -/
theorem detect_matches_priority_table (m : Option PackageJson) :
    detect_framework_and_build_dir m = detect_spec m := by
  cases m with
  | none => rfl
  | some pj =>
    simp only [detect_framework_and_build_dir, detect_spec, detectTable]
    cases h1 : hasDep (mergedDeps pj) (sl "vite") with
    | true => simp [List.find?, h1]
    | false =>
      cases h2 : hasDep (mergedDeps pj) (sl "next") with
      | true => simp [List.find?, h1, h2]
      | false =>
        cases h3 : hasDep (mergedDeps pj) (sl "@angular/core") with
        | true => simp [List.find?, h1, h2, h3]
        | false =>
          cases h4 : hasDep (mergedDeps pj) (sl "vue") with
          | true => simp [List.find?, h1, h2, h3, h4]
          | false =>
            cases h5 : hasDep (mergedDeps pj) (sl "react-scripts") with
            | true => simp [List.find?, h1, h2, h3, h4, h5]
            | false =>
              cases h6 : hasDep (mergedDeps pj) (sl "react") with
              | true => simp [List.find?, h1, h2, h3, h4, h5, h6]
              | false => simp [List.find?, h1, h2, h3, h4, h5, h6]

-- ### Cache-control and content-type tables (`_get_cache_control`)

/-- Lower-case a suffix as Python's `str.lower()` does for the ASCII
extensions involved here. -/
def lowerKey (k : Key) : Key := k.map Char.toLower

/-- The extension list the code gives long-lived immutable caching
("Static assets - long cache"). -/
def staticExts : List Key :=
  [sl ".js", sl ".css", sl ".png", sl ".jpg", sl ".gif", sl ".svg", sl ".ico",
    sl ".woff", sl ".woff2", sl ".ttf"]

/-- The extension list the code gives a short cache
("JSON and other data files - short cache"). -/
def dataExts : List Key := [sl ".json", sl ".xml", sl ".txt"]

/-- `AWSManager._get_cache_control`, as a function of the file's extension
(`file_path.suffix`); the code lower-cases the suffix first. -/
def get_cache_control (suffix : Key) : Key :=
  if staticExts.contains (lowerKey suffix) then sl "public, max-age=31536000, immutable"
  else if lowerKey suffix == sl ".html" then sl "public, max-age=0, must-revalidate"
  else if dataExts.contains (lowerKey suffix) then sl "public, max-age=3600"
  else sl "public, max-age=86400"

/-- The fallback content-type table of `_get_enhanced_content_type`
(used when the host `mimetypes` database has no answer). -/
def content_types : List (Key × Key) :=
  [(sl ".html", sl "text/html; charset=utf-8"),
    (sl ".css", sl "text/css; charset=utf-8"),
    (sl ".js", sl "application/javascript; charset=utf-8"),
    (sl ".mjs", sl "application/javascript; charset=utf-8"),
    (sl ".jsx", sl "application/javascript; charset=utf-8"),
    (sl ".ts", sl "application/javascript; charset=utf-8"),
    (sl ".tsx", sl "application/javascript; charset=utf-8"),
    (sl ".json", sl "application/json; charset=utf-8"),
    (sl ".xml", sl "application/xml; charset=utf-8"),
    (sl ".txt", sl "text/plain; charset=utf-8"),
    (sl ".md", sl "text/markdown; charset=utf-8"),
    (sl ".png", sl "image/png"),
    (sl ".jpg", sl "image/jpeg"),
    (sl ".jpeg", sl "image/jpeg"),
    (sl ".gif", sl "image/gif"),
    (sl ".svg", sl "image/svg+xml"),
    (sl ".ico", sl "image/x-icon"),
    (sl ".webp", sl "image/webp"),
    (sl ".woff", sl "font/woff"),
    (sl ".woff2", sl "font/woff2"),
    (sl ".ttf", sl "font/ttf"),
    (sl ".eot", sl "application/vnd.ms-fontobject")]

/-- `content_types.get(suffix, 'binary/octet-stream')`. -/
def contentTypeFallback (suffix : Key) : Key :=
  match content_types.find? (fun kv => kv.1 == lowerKey suffix) with
  | some kv => kv.2
  | none => sl "binary/octet-stream"

/-- Counterexample to C8: `.jpeg` is an image extension by the program's own
content-type table (`image/jpeg`), yet `_get_cache_control` gives it the
default day-long cache, not the long-lived immutable directive the claim
promises for every image file. -/
theorem jpeg_image_not_immutable :
    contentTypeFallback (sl ".jpeg") = sl "image/jpeg"
    ∧ get_cache_control (sl ".jpeg") = sl "public, max-age=86400"
    ∧ get_cache_control (sl ".jpeg") ≠ sl "public, max-age=31536000, immutable" := by
  refine ⟨rfl, rfl, ?_⟩
  decide

/-- C8 amended: the cache-control directive is determined by the exact
extension lists of the code — long-lived immutable caching precisely for
`.js .css .png .jpg .gif .svg .ico .woff .woff2 .ttf`, zero-cache
must-revalidate precisely for `.html`, an hour-long cache precisely for
`.json .xml .txt`, and a day-long default for everything else (so image,
font or script extensions outside the first list, such as `.jpeg`, `.webp`,
`.eot` and `.mjs`, get the default, not the immutable directive). -/
theorem cache_control_by_extension (suffix : Key) :
    (get_cache_control suffix = sl "public, max-age=31536000, immutable"
      ↔ lowerKey suffix ∈ staticExts)
    ∧ (get_cache_control suffix = sl "public, max-age=0, must-revalidate"
      ↔ lowerKey suffix = sl ".html")
    ∧ (get_cache_control suffix = sl "public, max-age=3600"
      ↔ lowerKey suffix ∈ dataExts) := by
  unfold get_cache_control
  by_cases h1 : lowerKey suffix ∈ staticExts
  · rw [if_pos (List.elem_iff.mpr h1)]
    refine ⟨iff_of_true rfl h1, iff_of_false (by decide) ?_, iff_of_false (by decide) ?_⟩
    · intro he
      rw [he] at h1
      exact absurd h1 (by decide)
    · intro hd
      have hdisj : ∀ x ∈ dataExts, x ∉ staticExts := by decide
      exact hdisj _ hd h1
  · rw [if_neg (fun hc => h1 (List.elem_iff.mp hc))]
    by_cases h2 : lowerKey suffix = sl ".html"
    · rw [if_pos (beq_iff_eq.mpr h2)]
      refine ⟨iff_of_false (by decide) h1, iff_of_true rfl h2, iff_of_false (by decide) ?_⟩
      intro hd
      rw [h2] at hd
      exact absurd hd (by decide)
    · rw [if_neg (fun hc => h2 (beq_iff_eq.mp hc))]
      by_cases h3 : lowerKey suffix ∈ dataExts
      · rw [if_pos (List.elem_iff.mpr h3)]
        exact ⟨iff_of_false (by decide) h1, iff_of_false (by decide) h2,
          iff_of_true rfl h3⟩
      · rw [if_neg (fun hc => h3 (List.elem_iff.mp hc))]
        exact ⟨iff_of_false (by decide) h1, iff_of_false (by decide) h2,
          iff_of_false (by decide) h3⟩

-- ### Upload (`deploy_version`) and its frame properties

/-- A file of the artifact tree: its path relative to the build directory
and its contents. -/
structure SrcFile where
  rel : Key
  body : List Nat
deriving DecidableEq

/-- The `.replace('\\', '/')` applied to each S3 key being built. -/
def slashFix (k : Key) : Key := k.map (fun c => if c == '\\' then '/' else c)

/-- `AWSManager.deploy_version`: fails when the artifact tree is empty,
otherwise uploads every file to `{p}/builds/{v}/{relativePath}` (with
backslashes normalized), attaching per-file content type and cache control;
those are abstracted as `meta` because content-type resolution consults the
host `mimetypes` database before the fallback table. -/
def deploy_version (p v : Key) (files : List SrcFile) (meta : SrcFile → Key × Key)
    (s : Bucket) : Except String (Nat × Bucket) :=
  if files.isEmpty then
    Except.error "Failed to upload files: No files found in build directory"
  else
    Except.ok (files.foldl
      (fun acc f => (acc.1 + 1,
        putObject acc.2 (slashFix (buildsPrefix p v ++ f.rel))
          ⟨f.body, (meta f).1, (meta f).2⟩))
      (0, s))

theorem slashFix_append (a b : Key) : slashFix (a ++ b) = slashFix a ++ slashFix b :=
  List.map_append _ _ _

theorem slashFix_of_no_backslash (k : Key) :
    (∀ c ∈ k, c ≠ '\\') → slashFix k = k := by
  induction k with
  | nil => intro _; rfl
  | cons c t ih =>
    intro h
    have hc : (c == '\\') = false :=
      beq_eq_false_iff_ne.mpr (h c (List.mem_cons_self c t))
    show List.map (fun c => if c == '\\' then '/' else c) (c :: t) = c :: t
    rw [List.map_cons, if_neg (by simp [hc])]
    exact congrArg (List.cons c) (ih (fun e he => h e (List.mem_cons_of_mem _ he)))

theorem upload_key_of_no_backslash (p v rel : Key) (hp : ∀ c ∈ p, c ≠ '\\')
    (hv : ∀ c ∈ v, c ≠ '\\') :
    slashFix (buildsPrefix p v ++ rel) = buildsPrefix p v ++ slashFix rel := by
  rw [slashFix_append]
  congr 1
  rw [buildsPrefix, slashFix_append, slashFix_append, slashFix_append,
    slashFix_of_no_backslash p hp, slashFix_of_no_backslash v hv]
  rfl

/-- An upload key can never sit under `{p}/current/`, backslashes or not. -/
theorem cur_not_pre_upload_key (p v rel : Key) :
    ¬ (currentPrefix p <+: slashFix (buildsPrefix p v ++ rel)) := by
  rintro ⟨u, hu⟩
  have hr : slashFix (buildsPrefix p v ++ rel)
      = slashFix p ++ (sl "/builds/" ++ slashFix (v ++ (sl "/" ++ rel))) := by
    rw [buildsPrefix]
    simp only [List.append_assoc]
    rw [slashFix_append, slashFix_append]
    rfl
  rw [currentPrefix, hr, List.append_assoc] at hu
  have hlen : p.length = (slashFix p).length := (List.length_map _ _).symm
  obtain ⟨hpeq, hrest⟩ := List.append_inj hu hlen
  have h3 := congrArg (fun l => l[1]?) hrest
  simp only at h3
  rw [List.getElem?_append_left (by simp [sl]),
    List.getElem?_append_left (by simp [sl])] at h3
  simp [sl] at h3

theorem find?_by_key {β : Type} (keyf : β → Key) (L : List β) (f : β)
    (hf : f ∈ L) (hnd : (L.map keyf).Nodup) :
    L.find? (fun g => keyf g == keyf f) = some f := by
  induction L with
  | nil => cases hf
  | cons g L ih =>
    rw [List.map_cons, List.nodup_cons] at hnd
    by_cases hg : keyf g = keyf f
    · rcases List.mem_cons.mp hf with rfl | hfL
      · rw [List.find?_cons_of_pos _ (by simp [hg])]
      · exfalso
        apply hnd.1
        rw [hg]
        exact List.mem_map.mpr ⟨f, hfL, rfl⟩
    · rcases List.mem_cons.mp hf with rfl | hfL
      · exact absurd rfl hg
      · rw [List.find?_cons_of_neg _ (by simpa using hg)]
        exact ih hfL hnd.2

/-- C7.  A successful upload writes one object per artifact file, each under
`{p}/builds/{v}/{relativePath}`; every key outside that version prefix — in
particular everything under `{p}/current/` — is left untouched, so the
active release is never mutated by upload. -/
theorem deploy_version_frame (p v : Key) (files : List SrcFile)
    (meta : SrcFile → Key × Key) (s : Bucket) (n : Nat) (s' : Bucket)
    (hp : ∀ c ∈ p, c ≠ '\\') (hv : ∀ c ∈ v, c ≠ '\\')
    (hnd : (files.map (fun f => slashFix (buildsPrefix p v ++ f.rel))).Nodup)
    (hrun : deploy_version p v files meta s = Except.ok (n, s')) :
    (∀ k : Key, currentPrefix p <+: k → lookupObj k s' = lookupObj k s)
    ∧ (∀ k : Key, ¬ (buildsPrefix p v <+: k) → lookupObj k s' = lookupObj k s)
    ∧ (∀ f ∈ files, lookupObj (slashFix (buildsPrefix p v ++ f.rel)) s'
        = some ⟨f.body, (meta f).1, (meta f).2⟩)
    ∧ n = files.length := by
  unfold deploy_version at hrun
  split at hrun
  · exact Except.noConfusion hrun
  · rw [foldl_count_pair (fun st (f : SrcFile) => putObject st
      (slashFix (buildsPrefix p v ++ f.rel)) ⟨f.body, (meta f).1, (meta f).2⟩)] at hrun
    have hpair := Except.ok.inj hrun
    rw [Prod.mk.injEq] at hpair
    obtain ⟨hn, hs'⟩ := hpair
    have hfold : ∀ k : Key, lookupObj k s'
        = ((files.find? (fun f => slashFix (buildsPrefix p v ++ f.rel) == k)).map
            (fun f => (⟨f.body, (meta f).1, (meta f).2⟩ : ObjData))).or (lookupObj k s) := by
      intro k
      rw [← hs']
      exact lookup_foldl_put _ _ files s k hnd
    refine ⟨?_, ?_, ?_, ?_⟩
    · intro k hk
      rw [hfold k]
      have hnone : files.find? (fun f => slashFix (buildsPrefix p v ++ f.rel) == k)
          = none := by
        rw [List.find?_eq_none]
        intro f _ hbeq
        rw [beq_iff_eq] at hbeq
        exact cur_not_pre_upload_key p v f.rel (hbeq.symm ▸ hk)
      rw [hnone]
      rfl
    · intro k hk
      rw [hfold k]
      have hnone : files.find? (fun f => slashFix (buildsPrefix p v ++ f.rel) == k)
          = none := by
        rw [List.find?_eq_none]
        intro f _ hbeq
        rw [beq_iff_eq] at hbeq
        apply hk
        rw [← hbeq, upload_key_of_no_backslash p v f.rel hp hv]
        exact pre_of_append _ _
      rw [hnone]
      rfl
    · intro f hf
      rw [hfold _]
      rw [find?_by_key (fun f => slashFix (buildsPrefix p v ++ f.rel)) files f hf hnd]
      rfl
    · rw [← hn, Nat.zero_add]

/-- Witness for C7 at a concrete one-file upload for project `shop`,
version `v1`. -/
theorem deploy_version_frame_witness :
    lookupObj (slashFix (buildsPrefix (sl "shop") (sl "v1") ++ sl "index.html"))
        [(sl "shop/builds/v1/index.html", ⟨[1], sl "text/html", sl "nc"⟩)]
      = some ⟨[1], sl "text/html", sl "nc"⟩ :=
  (deploy_version_frame (sl "shop") (sl "v1") [⟨sl "index.html", [1]⟩]
    (fun _ => (sl "text/html", sl "nc")) [] 1
    [(sl "shop/builds/v1/index.html", ⟨[1], sl "text/html", sl "nc"⟩)]
    (by decide) (by decide) (by decide) (by rfl)).2.2.1 ⟨sl "index.html", [1]⟩
    (by decide)

-- ### Strategy 4 of the build ladder: config-bypassed build with restoration

/-- The project directory as a map from file path to file content. -/
abbrev FS := List (Key × Key)

def fsLookup (path : Key) (fs : FS) : Option Key :=
  (fs.find? (fun e => e.1 == path)).map (·.2)

def fsExists (path : Key) (fs : FS) : Bool :=
  (fs.find? (fun e => e.1 == path)).isSome

/-- POSIX `Path.rename`: move `src` onto `dst`, silently replacing `dst`;
a no-op here when `src` is absent (the code only renames after an
existence check). -/
def fsRename (src dst : Key) (fs : FS) : FS :=
  match fsLookup src fs with
  | none => fs
  | some c => (fs.filter (fun e => !(e.1 == src) && !(e.1 == dst))) ++ [(dst, c)]

def viteConfigPath : Key := sl "vite.config.js"

def backupPath : Key := sl "vite.config.js.backup"

/-- Strategy 4 of `_build_with_fallbacks` ("build without configuration"):
rename `vite.config.js` aside to `vite.config.js.backup` when present, run
the bundler with zero-config defaults (`buildOk` is that run's outcome; the
external process does not touch the two configuration paths), then restore
the backup — inline on the success path, in the `except` handler on the
failure path. -/
def strategy4 (buildOk : Bool) (fs : FS) : Bool × FS :=
  let backedUp := fsExists viteConfigPath fs
  let fs1 := if backedUp then fsRename viteConfigPath backupPath fs else fs
  if buildOk then
    (true, if backedUp && fsExists backupPath fs1
      then fsRename backupPath viteConfigPath fs1 else fs1)
  else
    (false, if fsExists backupPath fs1
      then fsRename backupPath viteConfigPath fs1 else fs1)

theorem fsLookup_rename_dst (src dst : Key) (fs : FS) (c : Key)
    (h : fsLookup src fs = some c) :
    fsLookup dst (fsRename src dst fs) = some c := by
  unfold fsRename
  rw [h]
  unfold fsLookup
  rw [find?_append_or]
  have h1 : (fs.filter (fun e => !(e.1 == src) && !(e.1 == dst))).find?
      (fun e => e.1 == dst) = none := by
    rw [List.find?_eq_none]
    intro e he hbeq
    rw [List.mem_filter] at he
    have h2 := he.2
    rw [hbeq] at h2
    simp at h2
  rw [h1]
  simp [Option.orElse, List.find?]

theorem fsExists_of_lookup {path : Key} {fs : FS} {c : Key}
    (h : fsLookup path fs = some c) : fsExists path fs = true := by
  unfold fsExists
  unfold fsLookup at h
  cases hf : fs.find? (fun e => e.1 == path) with
  | none => rw [hf] at h; simp at h
  | some e => rfl

/-- C9.  Whenever `vite.config.js` exists before the config-bypassed build
strategy, it exists again at its original path (with its original content)
after the strategy completes — on the success path and on the failure path
alike. -/
theorem strategy4_restores_config (buildOk : Bool) (fs : FS) (c : Key)
    (h : fsLookup viteConfigPath fs = some c) :
    fsLookup viteConfigPath (strategy4 buildOk fs).2 = some c := by
  have hex : fsExists viteConfigPath fs = true := fsExists_of_lookup h
  have hb : fsLookup backupPath (fsRename viteConfigPath backupPath fs) = some c :=
    fsLookup_rename_dst _ _ _ _ h
  have hbex : fsExists backupPath (fsRename viteConfigPath backupPath fs) = true :=
    fsExists_of_lookup hb
  cases buildOk with
  | true =>
    simp only [strategy4, hex, if_true, hbex, Bool.and_self]
    exact fsLookup_rename_dst _ _ _ _ hb
  | false =>
    simp only [strategy4, hex, if_true, hbex]
    exact fsLookup_rename_dst _ _ _ _ hb

/-- Witness for C9 at a concrete project directory, on the failure path. -/
theorem strategy4_restores_config_witness :
    fsLookup viteConfigPath
        (strategy4 false [(sl "vite.config.js", sl "export default config")]).2
      = some (sl "export default config") :=
  strategy4_restores_config false [(sl "vite.config.js", sl "export default config")]
    (sl "export default config") (by rfl)

-- ### Project status (`get_project_status`)

/-- The result dictionary of `get_project_status`: the success shape carries
`is_deployed`, the optional published URL and the bucket/region pair; the
failure shape carries `is_deployed = False` and the error text only. -/
structure StatusResult where
  is_deployed : Bool
  website_url : Option Key
  bucketRegion : Option (Key × Key)
  error : Option String
deriving DecidableEq, Repr

/-- The published URL
`http://{bucket}.s3-website.{region}.amazonaws.com/{project}/current/`. -/
def website_url_of (bucket region p : Key) : Key :=
  sl "http://" ++ bucket ++ sl ".s3-website." ++ region ++ sl ".amazonaws.com/"
    ++ p ++ sl "/current/"

/-- `AWSManager.get_project_status`: probe `{p}/current/` with
`list_objects_v2(MaxKeys=1)`; on success report deployment status and the
URL (only when deployed); any exception is caught and turned into a result
carrying the error text — nothing propagates.  `probeFail` injects the
object-store fault. -/
def get_project_status (p : Key) (probeFail : Option String) (bucket region : Key)
    (s : Bucket) : StatusResult :=
  match probeFail with
  | some e => ⟨false, none, none, some e⟩
  | none =>
    let deployed := !(listPrefix (currentPrefix p) s).isEmpty
    ⟨deployed,
      if deployed then some (website_url_of bucket region p) else none,
      some (bucket, region), none⟩

/-- C10.  `get_project_status` never propagates an exception: a failed
object-store probe yields `is_deployed = false` with the error text
attached, and a successful probe reports `is_deployed = true` exactly when
at least one object exists under `{p}/current/`, with the published URL set
only in that case. -/
theorem get_project_status_total (p bucket region : Key) (s : Bucket) :
    (∀ e : String, get_project_status p (some e) bucket region s
        = ⟨false, none, none, some e⟩)
    ∧ ((get_project_status p none bucket region s).is_deployed = true
        ↔ ∃ kv ∈ s, currentPrefix p <+: kv.1)
    ∧ ((get_project_status p none bucket region s).website_url
        = if (get_project_status p none bucket region s).is_deployed
          then some (website_url_of bucket region p) else none)
    ∧ (get_project_status p none bucket region s).error = none := by
  refine ⟨fun e => rfl, ?_, rfl, rfl⟩
  show (!(listPrefix (currentPrefix p) s).isEmpty) = true
    ↔ ∃ kv ∈ s, currentPrefix p <+: kv.1
  rw [Bool.not_eq_true', List.isEmpty_eq_false_iff_exists_mem]
  constructor
  · rintro ⟨kv, hkv⟩
    rw [listPrefix, List.mem_filter] at hkv
    exact ⟨kv, hkv.1, isPrefixOf_iff_pre.mp hkv.2⟩
  · rintro ⟨kv, hkv, hpre⟩
    exact ⟨kv, List.mem_filter.mpr ⟨hkv, isPrefixOf_iff_pre.mpr hpre⟩⟩

-- ### Asset path normalization (`_fix_single_html_file`)

/-- Python's `\s` for the ASCII whitespace characters relevant here. -/
def isSpace (c : Char) : Bool :=
  c == ' ' || c == '\t' || c == '\n' || c == '\r' || c == '\x0b' || c == '\x0c'

/-- Strip an exact literal from the front of the input, if present. -/
def dropLit : Key → Key → Option Key
  | [], s => some s
  | _ :: _, [] => none
  | c :: l, a :: s => if a == c then dropLit l s else none

/-- Match `(/[^"]*)"` — a root-absolute quoted value: the input must start
with `/`; the group is everything up to the closing quote, which must
exist.  Returns (group, rest after the closing quote). -/
def takeQuoted (s : Key) : Option (Key × Key) :=
  match s with
  | '/' :: _ =>
    match s.dropWhile (fun c => !(c == '"')) with
    | '"' :: rest => some (s.takeWhile (fun c => !(c == '"')), rest)
    | _ => none
  | _ => none

/-- Greedy backtracking for `[^>]*` followed by `tail`: `g1rev` holds the
not-yet-ceded run characters in reverse; the longest split whose remainder
matches `tail` wins, exactly as the regex engine backtracks from the
longest `[^>]*`. -/
def greedySplit {α : Type} (tail : Key → Option α) : Key → Key → Option (Key × α)
  | [], rem =>
    match tail rem with
    | some b => some ([], b)
    | none => none
  | c :: g1rev', rem =>
    match tail rem with
    | some b => some ((c :: g1rev').reverse, b)
    | none => greedySplit tail g1rev' (c :: rem)

/-- The tail `\s{attr}="(/[^"]*)"` of the tag patterns. -/
def attrTail (attr : Key) (r : Key) : Option (Key × Key) :=
  match r with
  | [] => none
  | w :: r1 =>
    if isSpace w then
      match dropLit attr r1 with
      | none => none
      | some r2 =>
        match dropLit (sl "=\"") r2 with
        | none => none
        | some r3 => takeQuoted r3
    else none

/-- One match attempt of `<{tag}([^>]*)\s{attr}="(/[^"]*)"` at the current
position, with the replacement `<{tag}\1 {attr}=".\2"`; `[^>]*` is the
greedy run of non-`>` characters, backtracked from longest.  Covers the
script-src, link-href and img-src substitutions. -/
def tagMatch (tag attr : Key) (s : Key) : Option (Key × Key) :=
  match dropLit tag s with
  | none => none
  | some after =>
    match greedySplit (attrTail attr) (after.takeWhile (fun c => !(c == '>'))).reverse
        (after.dropWhile (fun c => !(c == '>'))) with
    | none => none
    | some (g1, (body, rest)) =>
      some (tag ++ g1 ++ ' ' :: attr ++ '=' :: '"' :: '.' :: body ++ ['"'], rest)

/-- The alternation `(src|href|action)`, tried in the pattern's order;
the alternatives start with distinct characters, so at most one literal can
match at a position. -/
def attrAlt (s : Key) : Option (Key × Key) :=
  match dropLit (sl "src") s with
  | some r => some (sl "src", r)
  | none =>
    match dropLit (sl "href") s with
    | some r => some (sl "href", r)
    | none =>
      match dropLit (sl "action") s with
      | some r => some (sl "action", r)
      | none => none

/-- One match attempt of `(src|href|action)="(/[^"]*)"` with replacement
`\1=".\2"`. -/
def attrMatch (s : Key) : Option (Key × Key) :=
  match attrAlt s with
  | none => none
  | some (attr, r) =>
    match dropLit (sl "=\"") r with
    | none => none
    | some r2 =>
      match takeQuoted r2 with
      | none => none
      | some (body, rest) => some (attr ++ '=' :: '"' :: '.' :: body ++ ['"'], rest)

/-- One match attempt of `<base[^>]*/?>` (replacement: removal).  The
greedy `[^>]*` runs to the first `>`; the optional `/` is subsumed by it. -/
def baseMatch (s : Key) : Option (Key × Key) :=
  match dropLit (sl "<base") s with
  | none => none
  | some after =>
    match after.dropWhile (fun c => !(c == '>')) with
    | '>' :: rest => some ([], rest)
    | _ => none

/-- One match attempt of `url\(/([^)]*)\)` with replacement `url(./\1)`. -/
def urlMatch (s : Key) : Option (Key × Key) :=
  match dropLit (sl "url(/") s with
  | none => none
  | some after =>
    match after.dropWhile (fun c => !(c == ')')) with
    | ')' :: rest =>
      some (sl "url(./" ++ after.takeWhile (fun c => !(c == ')')) ++ [')'], rest)
    | _ => none

/-- `re.sub` scan: find the leftmost match, emit its replacement, continue
after the matched text; characters before a match are copied.  The fuel
bounds the number of scan steps; every match consumes at least one input
character, so `s.length` steps always suffice. -/
def substFuel (m : Key → Option (Key × Key)) : Nat → Key → Key
  | _, [] => []
  | 0, s => s
  | fuel + 1, c :: cs =>
    match m (c :: cs) with
    | some (rep, rest) => rep ++ substFuel m fuel rest
    | none => c :: substFuel m fuel cs

def reSub (m : Key → Option (Key × Key)) (s : Key) : Key := substFuel m s.length s

/-- `BuildManager._fix_single_html_file`'s content transformation: the six
`re.sub` passes in source order (script-src, link-href, img-src, generic
src/href/action, base-tag removal, CSS `url()`). -/
def fix_single_html_file (s : Key) : Key :=
  reSub urlMatch (reSub baseMatch (reSub attrMatch
    (reSub (tagMatch (sl "<img") (sl "src"))
      (reSub (tagMatch (sl "<link") (sl "href"))
        (reSub (tagMatch (sl "<script") (sl "src")) s)))))

/-- Counterexample to C6: the rewrite is not idempotent.  On
`src="/src="/a"` the first application rewrites the leading attribute
(whose quoted value itself contains `="`), producing `src="./src="/a"`,
in which a new root-absolute match `src="/a"` has surfaced; the second
application rewrites it again. -/
theorem fix_html_not_idempotent :
    fix_single_html_file (fix_single_html_file (sl "src=\"/src=\"/a\""))
      ≠ fix_single_html_file (sl "src=\"/src=\"/a\"") := by
  decide

theorem dropLit_some : ∀ (lit s r : Key), dropLit lit s = some r → s = lit ++ r
  | [], s, r, h => by
    cases h
    rfl
  | c :: l, [], r, h => Option.noConfusion h
  | c :: l, a :: s, r, h => by
    unfold dropLit at h
    split at h
    · next ha =>
      have hrec := dropLit_some l s r h
      rw [beq_iff_eq] at ha
      rw [List.cons_append, ← hrec, ha]
    · exact Option.noConfusion h

theorem takeQuoted_head (s : Key) (pr : Key × Key) (h : takeQuoted s = some pr) :
    ∃ u, s = '/' :: u := by
  unfold takeQuoted at h
  split at h
  · next u => exact ⟨u, rfl⟩
  · exact Option.noConfusion h

theorem attrAlt_some (s : Key) (attr r : Key) (h : attrAlt s = some (attr, r)) :
    s = attr ++ r := by
  unfold attrAlt at h
  split at h
  · next r' h1 =>
    rw [Option.some.injEq, Prod.mk.injEq] at h
    obtain ⟨ha, hr⟩ := h
    rw [← ha, ← hr]
    exact dropLit_some _ _ _ h1
  · split at h
    · next r' h1 =>
      rw [Option.some.injEq, Prod.mk.injEq] at h
      obtain ⟨ha, hr⟩ := h
      rw [← ha, ← hr]
      exact dropLit_some _ _ _ h1
    · split at h
      · next r' h1 =>
        rw [Option.some.injEq, Prod.mk.injEq] at h
        obtain ⟨ha, hr⟩ := h
        rw [← ha, ← hr]
        exact dropLit_some _ _ _ h1
      · exact Option.noConfusion h

theorem attrMatch_trigger {t : Key} {pr : Key × Key} (h : attrMatch t = some pr) :
    sl "=\"/" <:+: t := by
  unfold attrMatch at h
  split at h
  · exact Option.noConfusion h
  · next attr r halt =>
    split at h
    · exact Option.noConfusion h
    · next r2 hdrop =>
      split at h
      · exact Option.noConfusion h
      · next body rest hq =>
        have h1 := attrAlt_some t attr r halt
        have h2 := dropLit_some _ _ _ hdrop
        obtain ⟨u, h3⟩ := takeQuoted_head _ _ hq
        refine ⟨attr, u, ?_⟩
        rw [h1, h2, h3, List.append_assoc]
        rfl

theorem attrTail_trigger {attr r : Key} {pr : Key × Key}
    (h : attrTail attr r = some pr) : sl "=\"/" <:+: r := by
  unfold attrTail at h
  split at h
  · exact Option.noConfusion h
  · next w r1 =>
    split at h
    · split at h
      · exact Option.noConfusion h
      · next r2 hd1 =>
        split at h
        · exact Option.noConfusion h
        · next r3 hd2 =>
          obtain ⟨u, h3⟩ := takeQuoted_head _ _ h
          have h1 := dropLit_some _ _ _ hd1
          have h2 := dropLit_some _ _ _ hd2
          refine ⟨w :: attr, u, ?_⟩
          rw [h1, h2, h3]
          simp only [List.cons_append, List.append_assoc]
          rfl
    · exact Option.noConfusion h

theorem greedySplit_some {α : Type} (tail : Key → Option α) :
    ∀ (g1rev rem : Key) (g : Key) (b : α),
      greedySplit tail g1rev rem = some (g, b)
        → ∃ r', r' <:+ (g1rev.reverse ++ rem) ∧ tail r' = some b := by
  intro g1rev
  induction g1rev with
  | nil =>
    intro rem g b h
    unfold greedySplit at h
    split at h
    · next b' hb =>
      rw [Option.some.injEq, Prod.mk.injEq] at h
      obtain ⟨-, hb'⟩ := h
      exact ⟨rem, by simp, hb' ▸ hb⟩
    · exact Option.noConfusion h
  | cons c g1rev' ih =>
    intro rem g b h
    unfold greedySplit at h
    split at h
    · next b' hb =>
      rw [Option.some.injEq, Prod.mk.injEq] at h
      obtain ⟨-, hb'⟩ := h
      exact ⟨rem, ⟨(c :: g1rev').reverse, rfl⟩, hb' ▸ hb⟩
    · obtain ⟨r', hs, ht⟩ := ih (c :: rem) g b h
      refine ⟨r', ?_, ht⟩
      rw [List.reverse_cons, List.append_assoc]
      exact hs

theorem tagMatch_trigger {tag attr t : Key} {pr : Key × Key}
    (h : tagMatch tag attr t = some pr) : sl "=\"/" <:+: t := by
  unfold tagMatch at h
  split at h
  · exact Option.noConfusion h
  · next after hd =>
    split at h
    · exact Option.noConfusion h
    · next g1 body rest hg =>
      obtain ⟨r', hs, ht⟩ := greedySplit_some _ _ _ _ _ hg

      rw [List.reverse_reverse, List.takeWhile_append_dropWhile] at hs
      have htr := attrTail_trigger ht
      have h1 := dropLit_some _ _ _ hd
      have h2 : r' <:+ t := by
        rw [h1]
        exact hs.trans ⟨tag, rfl⟩
      exact htr.trans h2.isInfix

theorem baseMatch_trigger {t : Key} {pr : Key × Key} (h : baseMatch t = some pr) :
    sl "<base" <:+: t := by
  unfold baseMatch at h
  split at h
  · exact Option.noConfusion h
  · next after hd =>
    have h1 := dropLit_some _ _ _ hd
    exact ⟨[], after, by rw [h1]; rfl⟩

theorem urlMatch_trigger {t : Key} {pr : Key × Key} (h : urlMatch t = some pr) :
    sl "url(/" <:+: t := by
  unfold urlMatch at h
  split at h
  · exact Option.noConfusion h
  · next after hd =>
    have h1 := dropLit_some _ _ _ hd
    exact ⟨[], after, by rw [h1]; rfl⟩

theorem substFuel_id (m : Key → Option (Key × Key)) :
    ∀ (fuel : Nat) (s : Key), (∀ t, t <:+ s → m t = none) → substFuel m fuel s = s
  | fuel, [], _ => by cases fuel <;> rfl
  | 0, _ :: _, _ => rfl
  | fuel + 1, c :: cs, h => by
    have hm := h (c :: cs) (List.suffix_refl _)
    show (match m (c :: cs) with
      | some (rep, rest) => rep ++ substFuel m fuel rest
      | none => c :: substFuel m fuel cs) = c :: cs
    rw [hm]
    exact congrArg (List.cons c) (substFuel_id m fuel cs
      (fun t ht => h t (ht.trans (List.suffix_cons c cs))))

/-- A substitution pass whose every match would contain the trigger
substring `pat` is the identity on inputs free of `pat`. -/
theorem reSub_id_of_trigger (m : Key → Option (Key × Key)) (pat : Key)
    (htrig : ∀ t pr, m t = some pr → pat <:+: t) (s : Key) (h : ¬ pat <:+: s) :
    reSub m s = s := by
  apply substFuel_id
  intro t ht
  cases hm : m t with
  | none => rfl
  | some pr =>
    exact absurd ((htrig t pr hm).trans ht.isInfix) h

/-- Boolean substring search (used to state the no-trigger side condition
executably). -/
def containsSub (pat s : Key) : Bool := s.tails.any (fun t => pat.isPrefixOf t)

theorem containsSub_false_no_infix {pat s : Key} (h : containsSub pat s = false) :
    ¬ (pat <:+: s) := by
  intro hinf
  obtain ⟨t, hpre, hsuf⟩ := List.infix_iff_prefix_suffix.mp hinf
  have htrue : containsSub pat s = true := by
    unfold containsSub
    rw [List.any_eq_true]
    exact ⟨t, (List.mem_tails _ _).mpr hsuf, isPrefixOf_iff_pre.mpr hpre⟩
  rw [h] at htrue
  exact Bool.noConfusion htrue

/-- C6 amended: the asset-path rewrite is a no-op — and therefore idempotent
— on every content free of the root-absolute triggers: no `="/ ` attribute
match, no `<base` tag, no `url(/` reference.  (Full idempotence on arbitrary
strings fails, see the counterexample: a rewritten quoted value can expose a
new root-absolute match to a second run.) -/
theorem fix_html_noop_on_relative (s : Key)
    (h1 : containsSub (sl "=\"/") s = false)
    (h2 : containsSub (sl "<base") s = false)
    (h3 : containsSub (sl "url(/") s = false) :
    fix_single_html_file s = s
    ∧ fix_single_html_file (fix_single_html_file s) = fix_single_html_file s := by
  have hni1 := containsSub_false_no_infix h1
  have hni2 := containsSub_false_no_infix h2
  have hni3 := containsSub_false_no_infix h3
  have hfix : fix_single_html_file s = s := by
    unfold fix_single_html_file
    rw [reSub_id_of_trigger (tagMatch (sl "<script") (sl "src")) (sl "=\"/")
        (fun t pr hh => tagMatch_trigger hh) s hni1,
      reSub_id_of_trigger (tagMatch (sl "<link") (sl "href")) (sl "=\"/")
        (fun t pr hh => tagMatch_trigger hh) s hni1,
      reSub_id_of_trigger (tagMatch (sl "<img") (sl "src")) (sl "=\"/")
        (fun t pr hh => tagMatch_trigger hh) s hni1,
      reSub_id_of_trigger attrMatch (sl "=\"/")
        (fun t pr hh => attrMatch_trigger hh) s hni1,
      reSub_id_of_trigger baseMatch (sl "<base")
        (fun t pr hh => baseMatch_trigger hh) s hni2,
      reSub_id_of_trigger urlMatch (sl "url(/")
        (fun t pr hh => urlMatch_trigger hh) s hni3]
  refine ⟨hfix, ?_⟩
  rw [hfix]
  exact hfix

/-- Witness for the amended C6 on a concrete already-relative document. -/
theorem fix_html_noop_on_relative_witness :
    fix_single_html_file (sl "<p href=\"./x\">ok</p>") = sl "<p href=\"./x\">ok</p>"
    ∧ fix_single_html_file (fix_single_html_file (sl "<p href=\"./x\">ok</p>"))
      = fix_single_html_file (sl "<p href=\"./x\">ok</p>") :=
  fix_html_noop_on_relative (sl "<p href=\"./x\">ok</p>")
    (by decide) (by decide) (by decide)
